import Mathlib

/-!
Verification development for the crowd-sourced lameness ranking engine
(Elo-style rating updater, rater reliability, David's Score, snapshots,
recalculation) of the vision-sam3-yolo-lameless repository.

The persistent data model is embedded from the SQL schema
(database initialization script: tables `video_elo_ratings`,
`pairwise_comparisons`, `gold_tasks`, `rater_stats`, `elo_history`,
`hierarchy_snapshots`) and the admin frontend
(`HierarchyVisualization.tsx`).  The rating-engine backend itself is not
part of the provided sources, so its operations are modelled from the
specification, as marked in each doc comment.
-/

namespace Lameless

/-- Clip a rational number to the interval `[0, 1]`. -/
def clip01 (x : ℚ) : ℚ := max 0 (min 1 x)

/-- Lookup in an association list keyed by `ℕ` (first match wins). -/
def alookup {α : Type} : List (ℕ × α) → ℕ → Option α
  | [], _ => none
  | (j, v) :: m, k => if j = k then some v else alookup m k

/-- Replace the value stored at key `k` (all matching entries); keys are
never added or removed. -/
def aset {α : Type} : List (ℕ × α) → ℕ → α → List (ℕ × α)
  | [], _, _ => []
  | (j, v) :: m, k, w => if j = k then (j, w) :: aset m k w else (j, v) :: aset m k w

/-- Per-subject rating state, embedded from the `video_elo_ratings` table:
columns `elo_rating`, `elo_uncertainty`, `wins`, `losses`, `ties`,
`total_comparisons`. -/
structure SubjectState where
  elo_rating : ℚ
  elo_uncertainty : ℚ
  wins : ℕ
  losses : ℕ
  ties : ℕ
  total_comparisons : ℕ
deriving DecidableEq, Repr

/-- Defaults of the `video_elo_ratings` table: `elo_rating FLOAT DEFAULT
1500.0`, `elo_uncertainty FLOAT DEFAULT 350.0`, all counters 0. -/
def initSubject : SubjectState :=
  { elo_rating := 1500, elo_uncertainty := 350
    wins := 0, losses := 0, ties := 0, total_comparisons := 0 }

/-- The initial uncertainty from the schema default (350.0), also used by
the frontend's `calculateConfidence` as the normalizing constant. -/
def initUncertainty : ℚ := 350

/-- Modelled from the spec: tunable constants of the Rating Updater
(section 4.4) — the base learning rate `K`, the fixed uncertainty decay
factor, the uncertainty floor, and the logistic expectation curve.  The
spec treats the learning-rate and degree-scaling constants as tunable
(section 9), so they are parameters here; `expected ra rb` is the
expected outcome for the first subject as a function of the two ratings. -/
structure EloParams where
  kBase : ℚ
  decay : ℚ
  floor : ℚ
  expected : ℚ → ℚ → ℚ

/-- Modelled from the spec (4.4 step 2): actual outcome score for the
first subject — tie gives 1/2, winner 1 shifts the base 1/2 up by
`degree/6`, winner 2 shifts it down, clipped to `[0,1]`. -/
def actualScoreA (winner degree : ℕ) : ℚ :=
  if winner = 0 then 1/2
  else if winner = 1 then clip01 (1/2 + (degree : ℚ)/6)
  else clip01 (1/2 - (degree : ℚ)/6)

/-- Modelled from the spec (4.4 step 3): effective K factor, the tunable
base rate scaled with the current uncertainty (bigger moves early,
smaller later); the mean of the two subjects' uncertainties is used so
that one shared delta serves both subjects (zero-sum, 4.4 step 4). -/
def kFactor (p : EloParams) (uncA uncB : ℚ) : ℚ :=
  p.kBase * ((uncA + uncB) / 2) / initUncertainty

/-- Modelled from the spec (4.4 step 3): rating delta
`K · rater_weight · (actual − expected)` for the first subject. -/
def ratingDelta (p : EloParams) (sa sb : SubjectState) (winner degree : ℕ) (w : ℚ) : ℚ :=
  kFactor p sa.elo_uncertainty sb.elo_uncertainty * w *
    (actualScoreA winner degree - p.expected sa.elo_rating sb.elo_rating)

/-- Modelled from the spec (4.4 step 4): uncertainty decays by a fixed
factor toward the floor. -/
def decayUnc (p : EloParams) (u : ℚ) : ℚ :=
  p.floor + (u - p.floor) * p.decay

/-- Modelled from the spec (4.4): the Rating Updater's per-comparison
update of the two participating subjects.  One shared delta is applied
with opposite signs (zero-sum), both uncertainties decay toward the
floor, and win/loss/tie and comparison counters increment. -/
def updatePair (p : EloParams) (sa sb : SubjectState) (winner degree : ℕ) (w : ℚ) :
    SubjectState × SubjectState :=
  let d := ratingDelta p sa sb winner degree w
  ({ elo_rating := sa.elo_rating + d
     elo_uncertainty := decayUnc p sa.elo_uncertainty
     wins := sa.wins + (if winner = 1 then 1 else 0)
     losses := sa.losses + (if winner = 2 then 1 else 0)
     ties := sa.ties + (if winner = 0 then 1 else 0)
     total_comparisons := sa.total_comparisons + 1 },
   { elo_rating := sb.elo_rating - d
     elo_uncertainty := decayUnc p sb.elo_uncertainty
     wins := sb.wins + (if winner = 2 then 1 else 0)
     losses := sb.losses + (if winner = 1 then 1 else 0)
     ties := sb.ties + (if winner = 0 then 1 else 0)
     total_comparisons := sb.total_comparisons + 1 })

/-- A stored comparison, embedded from the `pairwise_comparisons` table:
columns `video_id_1`, `video_id_2`, `winner`, `degree`, `rater_id`,
`rater_weight` (snapshotted at submission), `is_gold_task`, `created_at`
(modelled as a discrete timestamp). -/
structure Comparison where
  video_id_1 : ℕ
  video_id_2 : ℕ
  winner : ℕ
  degree : ℕ
  rater_id : ℕ
  rater_weight : ℚ
  is_gold_task : Bool
  created_at : ℕ
deriving DecidableEq, Repr

/-- Modelled from the spec (4.4/4.8): apply one stored comparison to the
subject table, using the comparison's snapshotted `rater_weight`.
Unknown subjects leave the table unchanged (ingest validates existence
before a comparison is ever stored). -/
def applySub (p : EloParams) (m : List (ℕ × SubjectState)) (c : Comparison) :
    List (ℕ × SubjectState) :=
  match alookup m c.video_id_1, alookup m c.video_id_2 with
  | some sa, some sb =>
    let pr := updatePair p sa sb c.winner c.degree c.rater_weight
    aset (aset m c.video_id_1 pr.1) c.video_id_2 pr.2
  | _, _ => m

/-- A rater's reliability state, embedded from the `rater_stats` table
(columns `agreement_rate`, `weight`, with the `users.is_active` flag)
together with the gold-attempt counters the Gold-Task Evaluator keeps
(spec 4.2: cumulative accuracy = correct / total gold attempts). -/
structure Rater where
  is_active : Bool
  weight : ℚ
  gold_attempts : ℕ
  gold_correct : ℕ
  agreement_rate : ℚ
deriving DecidableEq, Repr

/-- A newly created rater, with the `rater_stats` column defaults:
`weight FLOAT DEFAULT 1.0`, `gold_task_accuracy FLOAT DEFAULT 0.0`,
`agreement_rate FLOAT DEFAULT 0.0`, no gold attempts yet, and the
`users.is_active BOOLEAN DEFAULT TRUE` flag. -/
def defaultRater : Rater :=
  { is_active := true, weight := 1, gold_attempts := 0, gold_correct := 0
    agreement_rate := 0 }

/-- Modelled from the spec (4.2): cumulative gold-task accuracy,
correct / total gold attempts; 0 before any attempt (the `rater_stats`
default). -/
def goldAccuracy (r : Rater) : ℚ :=
  if r.gold_attempts = 0 then 0 else (r.gold_correct : ℚ) / r.gold_attempts

/-- Modelled from the spec (4.3): the recomputed trust weight, a function
of gold-task accuracy and agreement rate, both normalized to `[0,1]`;
the exact blend is tunable, modelled as their mean clipped to `[0,1]`. -/
def computeWeight (acc agr : ℚ) : ℚ := clip01 ((acc + agr) / 2)

/-- Modelled from the spec (4.3, cold start): the effective trust weight
snapshotted into a comparison.  With no gold attempt logged the stored
weight (default 1.0) is capped at 0.5; afterwards it is recomputed fully
from gold-task accuracy and agreement rate. -/
def effectiveWeight (r : Rater) : ℚ :=
  if r.gold_attempts = 0 then min r.weight (1/2)
  else computeWeight (goldAccuracy r) r.agreement_rate

/-- Modelled from the spec (4.2/4.3): record one gold-task attempt —
increment the attempt counters and recompute the stored weight fully
from the new accuracy and the agreement rate. -/
def recordGold (r : Rater) (correct : Bool) : Rater :=
  let att := r.gold_attempts + 1
  let cor := r.gold_correct + (if correct then 1 else 0)
  { r with gold_attempts := att, gold_correct := cor
           weight := computeWeight ((cor : ℚ) / att) r.agreement_rate }

/-- A gold task, embedded from the `gold_tasks` table: columns
`video_id_1`, `video_id_2`, `correct_winner`, `correct_degree`. -/
structure GoldTask where
  video_id_1 : ℕ
  video_id_2 : ℕ
  correct_winner : ℕ
  correct_degree : ℕ
deriving DecidableEq, Repr

/-- Find the active gold task for a given pair of subjects. -/
def findGold (gs : List GoldTask) (a b : ℕ) : Option GoldTask :=
  gs.find? (fun g => g.video_id_1 == a && g.video_id_2 == b)

/-- A rating-history entry, embedded from the `elo_history` table:
columns `video_id`, `elo_rating`, `comparison_count`. -/
structure HistEntry where
  video_id : ℕ
  elo_rating : ℚ
  comparison_count : ℕ
deriving DecidableEq, Repr

/-- A hierarchy snapshot, embedded from the `hierarchy_snapshots` table:
columns `id`, `name`, `description`, `total_videos`, `total_comparisons`,
`ranking_data`, `created_by`, `created_at`.  The ranking data is the
ranked list of (video id, elo rating) pairs at capture time. -/
structure Snapshot where
  sid : ℕ
  name : String
  description : String
  total_videos : ℕ
  total_comparisons : ℕ
  ranking_data : List (ℕ × ℚ)
  created_by : ℕ
  created_at : ℕ
deriving DecidableEq, Repr

/-- Insert one entry into a list ranked by descending rating. -/
def insertRank (x : ℕ × ℚ) : List (ℕ × ℚ) → List (ℕ × ℚ)
  | [] => [x]
  | y :: ys => if y.2 ≤ x.2 then x :: y :: ys else y :: insertRank x ys

/-- Rank entries by descending rating (insertion sort). -/
def sortRank : List (ℕ × ℚ) → List (ℕ × ℚ)
  | [] => []
  | x :: xs => insertRank x (sortRank xs)

/-- Modelled from the spec (4.6/4.7): the current ranking, descending by
rating. -/
def rankingOf (m : List (ℕ × SubjectState)) : List (ℕ × ℚ) :=
  sortRank (m.map (fun kv => (kv.1, kv.2.elo_rating)))

/-- The full system state: the persistent tables of the schema plus the
ingest clock that issues submission timestamps and the next snapshot id. -/
structure State where
  subjects : List (ℕ × SubjectState)
  raters : List (ℕ × Rater)
  goldTasks : List GoldTask
  comparisons : List Comparison
  history : List HistEntry
  snapshots : List Snapshot
  clock : ℕ
  nextSnapId : ℕ
deriving DecidableEq, Repr

/-- An ingest request, embedded from the external interface (spec 6):
`{subject_a, subject_b, winner, degree, rater_id, is_gold_task}`. -/
structure Request where
  subject_a : ℕ
  subject_b : ℕ
  winner : ℕ
  degree : ℕ
  rater_id : ℕ
  is_gold_task : Bool
deriving DecidableEq, Repr

/-- The synchronous validation errors of Comparison Ingest (spec 4.1). -/
inductive IngestError where
  | SubjectNotFound
  | SelfComparison
  | InvalidWinnerOrDegree
  | RaterInactive
deriving DecidableEq, Repr

/-- Modelled from the spec (3, 4.1): the winner/degree domain — winner
code in `{0,1,2}` and, when the comparison is not a tie, degree in
`[1,3]`. -/
def validWinnerDegree (winner degree : ℕ) : Bool :=
  winner ≤ 2 && (winner == 0 || (1 ≤ degree && degree ≤ 3))

/-- Modelled from the spec (4.2): evaluate a gold-task submission —
score the rater's answer against the pre-established correct
winner/degree and update the rater's cumulative accuracy and weight.
A missing gold task for the pair is reported but changes nothing. -/
def goldEvaluate (gs : List GoldTask) (rt : Rater) (r : Request) : Rater :=
  match findGold gs r.subject_a r.subject_b with
  | some g => recordGold rt (r.winner == g.correct_winner && r.degree == g.correct_degree)
  | none => rt

/-- Modelled from the spec (4.1, 5, 7): Comparison Ingest as one atomic
transaction.  Validation (subject existence, distinctness, winner/degree
domain, rater active status) happens first; on any validation error
nothing is persisted.  On success for a production comparison the
rater's current effective weight is snapshotted immutably into the
stored comparison, both subjects are updated through the Rating Updater
and history entries are appended; a gold-task submission instead routes
to the Gold-Task Evaluator and touches only the rater's calibration
statistics. -/
def ingest (p : EloParams) (s : State) (r : Request) : Except IngestError State :=
  match alookup s.subjects r.subject_a, alookup s.subjects r.subject_b with
  | none, _ => .error .SubjectNotFound
  | some _, none => .error .SubjectNotFound
  | some sa, some sb =>
    if r.subject_a = r.subject_b then .error .SelfComparison
    else if ¬ validWinnerDegree r.winner r.degree then .error .InvalidWinnerOrDegree
    else
      match alookup s.raters r.rater_id with
      | none => .error .RaterInactive
      | some rt =>
        if ¬ rt.is_active then .error .RaterInactive
        else if r.is_gold_task then
          .ok { s with raters := aset s.raters r.rater_id (goldEvaluate s.goldTasks rt r)
                       clock := s.clock + 1 }
        else
          let w := effectiveWeight rt
          let c : Comparison :=
            { video_id_1 := r.subject_a, video_id_2 := r.subject_b
              winner := r.winner, degree := r.degree, rater_id := r.rater_id
              rater_weight := w, is_gold_task := false, created_at := s.clock }
          let pr := updatePair p sa sb r.winner r.degree w
          .ok { s with subjects := applySub p s.subjects c
                       comparisons := s.comparisons ++ [c]
                       history :=
                         { video_id := r.subject_a, elo_rating := pr.1.elo_rating
                           comparison_count := pr.1.total_comparisons } ::
                         { video_id := r.subject_b, elo_rating := pr.2.elo_rating
                           comparison_count := pr.2.total_comparisons } :: s.history
                       clock := s.clock + 1 }

/-- One live ingest step: a validation error persists nothing (spec 7). -/
def liveStep (p : EloParams) (s : State) (r : Request) : State :=
  match ingest p s r with
  | .ok s' => s'
  | .error _ => s

/-- A sequence of live ingest steps. -/
def liveRun (p : EloParams) (s : State) (rs : List Request) : State :=
  rs.foldl (liveStep p) s

/-- The clean initial state: the given subjects at the schema defaults,
the given rater directory and gold-task set, and empty logs. -/
def initState (ids : List ℕ) (rts : List (ℕ × Rater)) (gs : List GoldTask) : State :=
  { subjects := ids.map (fun i => (i, initSubject))
    raters := rts, goldTasks := gs, comparisons := [], history := []
    snapshots := [], clock := 0, nextSnapId := 0 }

/-- Insert a comparison into a list sorted by ascending timestamp. -/
def insertTs (c : Comparison) : List Comparison → List Comparison
  | [] => [c]
  | d :: ds => if c.created_at ≤ d.created_at then c :: d :: ds else d :: insertTs c ds

/-- Sort stored comparisons by ascending submission timestamp
(stable insertion sort). -/
def sortTs : List Comparison → List Comparison
  | [] => []
  | c :: cs => insertTs c (sortTs cs)

/-- Reset every subject row to the schema defaults (spec 4.8). -/
def resetSubjects (m : List (ℕ × SubjectState)) : List (ℕ × SubjectState) :=
  m.map (fun kv => (kv.1, initSubject))

/-- Modelled from the spec (4.8): replay the stored comparisons from a
clean subject table, strictly in ascending submission-timestamp order,
through the Rating Updater, using each comparison's originally
snapshotted rater weight. -/
def replaySubjects (p : EloParams) (m : List (ℕ × SubjectState)) (cs : List Comparison) :
    List (ℕ × SubjectState) :=
  (sortTs cs).foldl (applySub p) (resetSubjects m)

/-- Modelled from the spec (4.8): the Recalculation Engine's full
rebuild — reset all subjects to the initial defaults and replay the
complete stored comparison history. -/
def recalc (p : EloParams) (s : State) : State :=
  { s with subjects := replaySubjects p s.subjects s.comparisons }

/-- Modelled from the spec (4.7): `capture(name, description)` persists
an immutable copy of the current ranking and aggregate metrics with
creator and timestamp. -/
def mkSnapshot (s : State) (name desc : String) (creator : ℕ) : Snapshot :=
  { sid := s.nextSnapId, name := name, description := desc
    total_videos := s.subjects.length, total_comparisons := s.comparisons.length
    ranking_data := rankingOf s.subjects
    created_by := creator, created_at := s.clock }

/-- Modelled from the spec (4.7): append the captured snapshot to the
snapshot store. -/
def capture (s : State) (name desc : String) (creator : ℕ) : State :=
  { s with snapshots := s.snapshots ++ [mkSnapshot s name desc creator]
           nextSnapId := s.nextSnapId + 1 }

/-- Retrieve a stored snapshot by id. -/
def snapFind : List Snapshot → ℕ → Option Snapshot
  | [], _ => none
  | sn :: l, i => if sn.sid = i then some sn else snapFind l i

/-- Snapshot retrieval by id (spec 4.7). -/
def getSnapshot (s : State) (i : ℕ) : Option Snapshot := snapFind s.snapshots i

/-- A system-level operation: a comparison submission or a snapshot
capture. -/
inductive Op where
  | compare (r : Request)
  | snapshot (name desc : String) (creator : ℕ)
deriving DecidableEq, Repr

/-- Apply one operation to the state. -/
def opStep (p : EloParams) (s : State) : Op → State
  | .compare r => liveStep p s r
  | .snapshot n d cr => capture s n d cr

/-- Apply a sequence of operations. -/
def runOps (p : EloParams) (s : State) (ops : List Op) : State :=
  ops.foldl (opStep p) s

/-- Modelled from the spec (4.5): a subject's win record against each
opponent — (number of wins against that opponent, that opponent's own
win rate). -/
def winProfile (wa : List (ℕ × ℚ)) : List ℚ :=
  (wa.map (fun pr => List.replicate pr.1 pr.2)).flatten

/-- Modelled from the spec (4.5): David's raw score — for each opponent,
wins against that opponent weighted by the opponent's own win rate,
summed. -/
def davidsRaw (wa : List (ℕ × ℚ)) : ℚ :=
  (wa.map (fun pr => (pr.1 : ℚ) * pr.2)).sum

/-- Modelled from the spec (4.5): David's Score — the raw
opponent-weighted win sum, normalized across the population by a shared
population constant and clipped to `[0,1]`. -/
def davidsScore (wa : List (ℕ × ℚ)) (norm : ℚ) : ℚ :=
  clip01 (davidsRaw wa / norm)

/-- Total win count of a subject's win record. -/
def winCount (wa : List (ℕ × ℚ)) : ℕ := (wa.map (fun pr => pr.1)).sum

/-- The invariant of a stored comparison (spec 3): distinct subjects,
winner code in `{0,1,2}`, and degree in `[1,3]` when the comparison is
not a tie. -/
def goodComparison (c : Comparison) : Prop :=
  c.video_id_1 ≠ c.video_id_2 ∧ c.winner ≤ 2 ∧
    (c.winner ≠ 0 → 1 ≤ c.degree ∧ c.degree ≤ 3)

/-- Snapshot ids issued so far all lie below the next snapshot id. -/
def snapIdsBelow (s : State) : Prop :=
  ∀ sn ∈ s.snapshots, sn.sid < s.nextSnapId

/-- The replay invariant of the live ingest path relative to a clean
base subject table: the current subject table is the fold of the stored
comparisons over the base, resetting the current table recovers the
base, and the stored comparisons carry ascending submission timestamps
below the clock. -/
def ReplayInv (p : EloParams) (base : List (ℕ × SubjectState)) (s : State) : Prop :=
  s.subjects = s.comparisons.foldl (applySub p) base ∧
  resetSubjects s.subjects = base ∧
  (∀ c ∈ s.comparisons, c.created_at < s.clock) ∧
  s.comparisons.Pairwise (fun c d => c.created_at ≤ d.created_at)

/-- A concrete parameter instantiation used by the evaluation witnesses:
base K 32, decay 0.9, floor 50, and a flat expectation curve. -/
def p0 : EloParams :=
  { kBase := 32, decay := 9/10, floor := 50, expected := fun _ _ => 1/2 }

/-- A concrete two-subject, one-rater initial state used by the
evaluation witnesses. -/
def st0 : State := initState [1, 2] [(7, defaultRater)] []

/-- The hierarchy view's per-entry confidence, embedded from
`HierarchyVisualization.tsx` (`calculateConfidence`): the mean of the
capped normalized comparison count `min 1 (comparisons/20)` and the
normalized uncertainty complement `1 - uncertainty/350`. -/
def calculateConfidence (comparisons uncertainty : ℚ) : ℚ :=
  let compConfidence := min 1 (comparisons / 20)
  let uncertaintyConfidence := 1 - uncertainty / 350
  (compConfidence + uncertaintyConfidence) / 2

theorem clip01_nonneg (x : ℚ) : 0 ≤ clip01 x := le_max_left 0 _

theorem clip01_le_one (x : ℚ) : clip01 x ≤ 1 :=
  max_le (by norm_num) (min_le_left 1 x)

theorem clip01_mono {a b : ℚ} (h : a ≤ b) : clip01 a ≤ clip01 b :=
  max_le_max le_rfl (min_le_min le_rfl h)

/-- C1: for every live comparison processed by the Rating Updater, the
rating delta applied to the first participant is exactly the negative of
the delta applied to the second: the two deltas sum to zero (exactly, in
the rational embedding, hence within any floating tolerance). -/
theorem updatePair_zero_sum (p : EloParams) (sa sb : SubjectState) (winner degree : ℕ)
    (w : ℚ) :
    ((updatePair p sa sb winner degree w).1.elo_rating - sa.elo_rating) +
      ((updatePair p sa sb winner degree w).2.elo_rating - sb.elo_rating) = 0 := by
  simp only [updatePair]
  ring

/-- C10: the hierarchy view's confidence is the arithmetic mean of
`min 1 (comparisons/20)` and `1 - uncertainty/350`; with uncertainty in
`[0,350]` and a non-negative comparison count it lies in `[0,1]`, and a
fresh subject (zero comparisons, uncertainty 350) has confidence 0. -/
theorem calculateConfidence_spec (c u : ℚ) (hc : 0 ≤ c) (hu0 : 0 ≤ u) (hu : u ≤ 350) :
    calculateConfidence c u = (min 1 (c / 20) + (1 - u / 350)) / 2 ∧
    0 ≤ calculateConfidence c u ∧ calculateConfidence c u ≤ 1 ∧
    calculateConfidence 0 350 = 0 := by
  have h1 : 0 ≤ min 1 (c / 20) := le_min (by norm_num) (by positivity)
  have h2 : min 1 (c / 20) ≤ 1 := min_le_left 1 _
  have h3 : 0 ≤ 1 - u / 350 := by
    have : u / 350 ≤ 1 := by
      rw [div_le_one (by norm_num)]
      linarith
    linarith
  have h4 : 1 - u / 350 ≤ 1 := by
    have : 0 ≤ u / 350 := by positivity
    linarith
  refine ⟨rfl, ?_, ?_, by norm_num [calculateConfidence]⟩
  · show 0 ≤ (min 1 (c / 20) + (1 - u / 350)) / 2
    linarith
  · show (min 1 (c / 20) + (1 - u / 350)) / 2 ≤ 1
    linarith

/-- Evaluation witness for C10 at comparisons 10, uncertainty 140. -/
theorem calculateConfidence_spec_witness :
    calculateConfidence 10 140 = (min 1 (10 / 20) + (1 - 140 / 350)) / 2 ∧
    0 ≤ calculateConfidence 10 140 ∧ calculateConfidence 10 140 ≤ 1 ∧
    calculateConfidence 0 350 = 0 :=
  calculateConfidence_spec 10 140 (by norm_num) (by norm_num) (by norm_num)

/-- C9: a rater with no gold-task attempt has effective weight at most
0.5 — for the defaults (weight 1.0) the cap gives exactly 0.5 — and
after a gold-task attempt is recorded the attempt counter is positive
and the effective weight is recomputed fully from gold-task accuracy
and agreement rate. -/
theorem coldStart_weight_cap (r : Rater) (b : Bool) (h : r.gold_attempts = 0) :
    effectiveWeight r ≤ 1/2 ∧
    effectiveWeight defaultRater = 1/2 ∧
    (recordGold r b).gold_attempts = r.gold_attempts + 1 ∧
    effectiveWeight (recordGold r b) =
      computeWeight (goldAccuracy (recordGold r b)) (recordGold r b).agreement_rate := by
  refine ⟨?_, ?_, rfl, ?_⟩
  · rw [effectiveWeight, if_pos h]
    exact min_le_right _ _
  · show (if defaultRater.gold_attempts = 0 then min defaultRater.weight (1/2)
      else computeWeight (goldAccuracy defaultRater) defaultRater.agreement_rate) = 1/2
    norm_num [defaultRater, min_def]
  · rw [effectiveWeight, if_neg (by simp [recordGold])]

/-- Evaluation witness for C9 at the default (freshly created) rater. -/
theorem coldStart_weight_cap_witness :
    effectiveWeight defaultRater ≤ 1/2 ∧
    effectiveWeight defaultRater = 1/2 ∧
    (recordGold defaultRater true).gold_attempts = defaultRater.gold_attempts + 1 ∧
    effectiveWeight (recordGold defaultRater true) =
      computeWeight (goldAccuracy (recordGold defaultRater true))
        (recordGold defaultRater true).agreement_rate :=
  coldStart_weight_cap defaultRater true rfl

theorem davidsRaw_eq_profile_sum (wa : List (ℕ × ℚ)) :
    davidsRaw wa = (winProfile wa).sum := by
  induction wa with
  | nil => simp [davidsRaw, winProfile]
  | cons hd tl ih =>
    simp [davidsRaw, winProfile, List.sum_replicate, nsmul_eq_mul] at ih ⊢
    exact ih

theorem winCount_eq_profile_length (wa : List (ℕ × ℚ)) :
    winCount wa = (winProfile wa).length := by
  induction wa with
  | nil => simp [winCount, winProfile]
  | cons hd tl ih =>
    simp [winCount, winProfile] at ih ⊢
    exact ih

theorem sum_le_sum_of_forall2 {l₁ l₂ : List ℚ}
    (h : List.Forall₂ (fun a b => b ≤ a) l₁ l₂) : l₂.sum ≤ l₁.sum := by
  induction h with
  | nil => simp
  | cons hab _ ih =>
    simp only [List.sum_cons]
    exact add_le_add hab ih

/-- C5: David's Score lies in `[0,1]`, and if two subjects' win profiles
pair each win of the first against an opponent with win rate at least
that of the corresponding win of the second (so in particular both have
the same win count), the first subject's David's Score is at least the
second's. -/
theorem davidsScore_bounds_and_opponent_monotone (wi wj : List (ℕ × ℚ)) (norm : ℚ)
    (hnorm : 0 ≤ norm)
    (hdom : List.Forall₂ (fun a b => b ≤ a) (winProfile wi) (winProfile wj)) :
    (0 ≤ davidsScore wi norm ∧ davidsScore wi norm ≤ 1) ∧
    winCount wi = winCount wj ∧
    davidsScore wj norm ≤ davidsScore wi norm := by
  refine ⟨⟨clip01_nonneg _, clip01_le_one _⟩, ?_, ?_⟩
  · rw [winCount_eq_profile_length, winCount_eq_profile_length, hdom.length_eq]
  · apply clip01_mono
    have hraw : davidsRaw wj ≤ davidsRaw wi := by
      rw [davidsRaw_eq_profile_sum, davidsRaw_eq_profile_sum]
      exact sum_le_sum_of_forall2 hdom
    rcases eq_or_lt_of_le hnorm with h0 | h0
    · rw [← h0, div_zero, div_zero]
    · exact (div_le_div_iff_of_pos_right h0).mpr hraw

/-- Evaluation witness for C5: two wins against a 0.9-rate opponent
versus one win each against 0.1- and 0.2-rate opponents, population
normalizer 4. -/
theorem davidsScore_bounds_and_opponent_monotone_witness :
    (0 ≤ davidsScore [(2, 9/10)] 4 ∧ davidsScore [(2, 9/10)] 4 ≤ 1) ∧
    winCount [(2, 9/10)] = winCount [(1, 1/10), (1, 1/5)] ∧
    davidsScore [(1, 1/10), (1, 1/5)] 4 ≤ davidsScore [(2, 9/10)] 4 :=
  davidsScore_bounds_and_opponent_monotone [(2, 9/10)] [(1, 1/10), (1, 1/5)] 4
    (by norm_num)
    (by simp [winProfile, List.forall₂_cons]; norm_num)

theorem alookup_aset {α : Type} (m : List (ℕ × α)) (j k : ℕ) (v : α) :
    alookup (aset m j v) k =
      if j = k then (alookup m k).map (fun _ => v) else alookup m k := by
  induction m with
  | nil => simp [aset, alookup]
  | cons hd tl ih =>
    obtain ⟨a, w⟩ := hd
    by_cases haj : a = j
    · subst haj
      by_cases hak : a = k
      · subst hak
        simp [aset, alookup]
      · simp [aset, alookup, hak, ih]
    · by_cases hak : a = k
      · subst hak
        have hjk : ¬ j = a := fun h => haj h.symm
        simp [aset, alookup, haj, hjk]
      · simp [aset, alookup, haj, hak, ih]

theorem decayUnc_ge_floor (p : EloParams) (u : ℚ) (h0 : 0 ≤ p.decay)
    (hf : p.floor ≤ u) : p.floor ≤ decayUnc p u := by
  unfold decayUnc
  nlinarith [mul_nonneg (sub_nonneg.mpr hf) h0]

theorem decayUnc_le (p : EloParams) (u : ℚ) (h1 : p.decay ≤ 1)
    (hf : p.floor ≤ u) : decayUnc p u ≤ u := by
  unfold decayUnc
  nlinarith [mul_le_mul_of_nonneg_left h1 (sub_nonneg.mpr hf)]

theorem updatePair_fst_unc (p : EloParams) (sa sb : SubjectState) (winner degree : ℕ)
    (w : ℚ) :
    (updatePair p sa sb winner degree w).1.elo_uncertainty =
      decayUnc p sa.elo_uncertainty := rfl

theorem updatePair_snd_unc (p : EloParams) (sa sb : SubjectState) (winner degree : ℕ)
    (w : ℚ) :
    (updatePair p sa sb winner degree w).2.elo_uncertainty =
      decayUnc p sb.elo_uncertainty := rfl

theorem alookup_applySub (p : EloParams) (m : List (ℕ × SubjectState)) (c : Comparison)
    (k : ℕ) (ss : SubjectState) (h : alookup m k = some ss) :
    ∃ ss₁, alookup (applySub p m c) k = some ss₁ ∧
      (ss₁ = ss ∨ ss₁.elo_uncertainty = decayUnc p ss.elo_uncertainty) := by
  unfold applySub
  cases h1 : alookup m c.video_id_1 with
  | none => exact ⟨ss, by cases alookup m c.video_id_2 <;> simpa using h, .inl rfl⟩
  | some sa =>
    cases h2 : alookup m c.video_id_2 with
    | none => exact ⟨ss, by simpa using h, .inl rfl⟩
    | some sb =>
      by_cases hbk : c.video_id_2 = k
      · have hss : sb = ss := by
          rw [hbk] at h2
          rw [h2] at h
          exact Option.some.inj h
        refine ⟨(updatePair p sa sb c.winner c.degree c.rater_weight).2, ?_, .inr ?_⟩
        · rw [alookup_aset, if_pos hbk, alookup_aset]
          by_cases hak : c.video_id_1 = k
          · rw [if_pos hak, h]
            rfl
          · rw [if_neg hak, h]
            rfl
        · rw [updatePair_snd_unc, hss]
      · by_cases hak : c.video_id_1 = k
        · have hss : sa = ss := by
            rw [hak] at h1
            rw [h1] at h
            exact Option.some.inj h
          refine ⟨(updatePair p sa sb c.winner c.degree c.rater_weight).1, ?_, .inr ?_⟩
          · rw [alookup_aset, if_neg hbk, alookup_aset, if_pos hak, h]
            rfl
          · rw [updatePair_fst_unc, hss]
        · refine ⟨ss, ?_, .inl rfl⟩
          rw [alookup_aset, if_neg hbk, alookup_aset, if_neg hak]
          exact h

theorem liveStep_cases (p : EloParams) (s : State) (r : Request) :
    liveStep p s r = s ∨
    (r.is_gold_task = true ∧ ∃ rts',
      liveStep p s r = { s with raters := rts', clock := s.clock + 1 }) ∨
    (r.is_gold_task = false ∧ ∃ (c : Comparison) (e₁ e₂ : HistEntry),
      c.is_gold_task = false ∧ c.created_at = s.clock ∧ goodComparison c ∧
      liveStep p s r =
        { s with subjects := applySub p s.subjects c
                 comparisons := s.comparisons ++ [c]
                 history := e₁ :: e₂ :: s.history
                 clock := s.clock + 1 }) := by
  unfold liveStep ingest
  cases h1 : alookup s.subjects r.subject_a with
  | none => exact .inl rfl
  | some sa =>
    cases h2 : alookup s.subjects r.subject_b with
    | none => exact .inl rfl
    | some sb =>
      dsimp only
      by_cases hab : r.subject_a = r.subject_b
      · rw [if_pos hab]
        exact .inl rfl
      · rw [if_neg hab]
        by_cases hwd : validWinnerDegree r.winner r.degree
        · rw [if_neg (not_not_intro hwd)]
          cases h3 : alookup s.raters r.rater_id with
          | none => exact .inl rfl
          | some rt =>
            dsimp only
            by_cases hact : rt.is_active
            · rw [if_neg (not_not_intro hact)]
              by_cases hg : r.is_gold_task
              · rw [if_pos hg]
                exact .inr (.inl ⟨hg, _, rfl⟩)
              · rw [if_neg hg]
                refine .inr (.inr ⟨by simpa using hg,
                  ⟨r.subject_a, r.subject_b, r.winner, r.degree, r.rater_id,
                    effectiveWeight rt, false, s.clock⟩, _, _, rfl, rfl, ?_, rfl⟩)
                simp only [validWinnerDegree, Bool.and_eq_true, Bool.or_eq_true,
                  beq_iff_eq, decide_eq_true_eq] at hwd
                refine ⟨hab, hwd.1, ?_⟩
                intro hw0
                rcases hwd.2 with h | h
                · exact absurd h hw0
                · exact h
            · rw [if_pos (by simpa using hact)]
              exact .inl rfl
        · rw [if_pos (by simpa using hwd)]
          exact .inl rfl

theorem liveStep_subjects (p : EloParams) (s : State) (r : Request) :
    (liveStep p s r).subjects = s.subjects ∨
    ∃ c, (liveStep p s r).subjects = applySub p s.subjects c := by
  rcases liveStep_cases p s r with h | ⟨_, rts', h⟩ | ⟨_, c, e₁, e₂, _, _, _, h⟩
  · exact .inl (by rw [h])
  · exact .inl (by rw [h])
  · exact .inr ⟨c, by rw [h]⟩

/-- C3: across any sequence of live ingest steps with no recalculation,
a subject's rating uncertainty never increases and, once at or above the
configured floor, stays at or above it. -/
theorem uncertainty_monotone_floor (p : EloParams) (h0 : 0 ≤ p.decay) (h1 : p.decay ≤ 1)
    (s : State) (rs : List Request) (k : ℕ) (ss ss' : SubjectState)
    (hm : alookup s.subjects k = some ss) (hf : p.floor ≤ ss.elo_uncertainty)
    (h' : alookup (liveRun p s rs).subjects k = some ss') :
    p.floor ≤ ss'.elo_uncertainty ∧ ss'.elo_uncertainty ≤ ss.elo_uncertainty := by
  induction rs generalizing s ss with
  | nil =>
    simp only [liveRun, List.foldl_nil] at h'
    rw [hm] at h'
    cases h'
    exact ⟨hf, le_rfl⟩
  | cons r rs ih =>
    simp only [liveRun, List.foldl_cons] at h'
    rcases liveStep_subjects p s r with he | ⟨c, he⟩
    · exact ih (liveStep p s r) ss (by rw [he]; exact hm) hf h'
    · obtain ⟨ss₁, h₁, hcase⟩ := alookup_applySub p s.subjects c k ss hm
      have hm₁ : alookup (liveStep p s r).subjects k = some ss₁ := by
        rw [he]; exact h₁
      rcases hcase with rfl | hdec
      · exact ih (liveStep p s r) ss₁ hm₁ hf h'
      · have hfl₁ : p.floor ≤ ss₁.elo_uncertainty := by
          rw [hdec]; exact decayUnc_ge_floor p _ h0 hf
        have hle₁ : ss₁.elo_uncertainty ≤ ss.elo_uncertainty := by
          rw [hdec]; exact decayUnc_le p _ h1 hf
        obtain ⟨hg, hl⟩ := ih (liveStep p s r) ss₁ hm₁ hfl₁ h'
        exact ⟨hg, le_trans hl hle₁⟩

/-- Evaluation witness for C3: one live comparison decays subject 1's
uncertainty from 350 to 320, between the floor 50 and the start 350. -/
theorem uncertainty_monotone_floor_witness :
    p0.floor ≤ (SubjectState.mk (4516/3) 320 1 0 0 1).elo_uncertainty ∧
    (SubjectState.mk (4516/3) 320 1 0 0 1).elo_uncertainty ≤
      initSubject.elo_uncertainty :=
  uncertainty_monotone_floor p0 (by norm_num [p0]) (by norm_num [p0]) st0
    [⟨1, 2, 1, 2, 7, false⟩] 1 initSubject (SubjectState.mk (4516/3) 320 1 0 0 1)
    (by simp [st0, initState, alookup]) (by norm_num [p0, initSubject])
    (by
      simp only [liveRun, List.foldl_cons, List.foldl_nil, liveStep, ingest, st0,
        initState, List.map_cons, List.map_nil, alookup, applySub, aset, updatePair,
        ratingDelta, kFactor, actualScoreA, clip01, decayUnc, effectiveWeight,
        defaultRater, p0, initSubject, validWinnerDegree, initUncertainty]
      norm_num)

/-- C4: a gold-task submission leaves every subject's rating state (and
with it the win/loss/tie matrix from which David's Score is computed on
demand) unchanged — the stored comparisons and history too; only rater
calibration statistics may change. -/
theorem gold_task_frame (p : EloParams) (s : State) (r : Request)
    (hg : r.is_gold_task = true) :
    (liveStep p s r).subjects = s.subjects ∧
    (liveStep p s r).comparisons = s.comparisons ∧
    (liveStep p s r).history = s.history ∧
    (liveStep p s r).snapshots = s.snapshots := by
  rcases liveStep_cases p s r with h | ⟨_, rts', h⟩ | ⟨hng, _, _, _, _, _, _, h⟩
  · rw [h]
    exact ⟨rfl, rfl, rfl, rfl⟩
  · rw [h]
    exact ⟨rfl, rfl, rfl, rfl⟩
  · rw [hg] at hng
    cases hng

/-- Evaluation witness for C4: a concrete gold-task submission against
the two-subject state changes no subject data. -/
theorem gold_task_frame_witness :
    (liveStep p0 st0 ⟨1, 2, 1, 2, 7, true⟩).subjects = st0.subjects ∧
    (liveStep p0 st0 ⟨1, 2, 1, 2, 7, true⟩).comparisons = st0.comparisons ∧
    (liveStep p0 st0 ⟨1, 2, 1, 2, 7, true⟩).history = st0.history ∧
    (liveStep p0 st0 ⟨1, 2, 1, 2, 7, true⟩).snapshots = st0.snapshots :=
  gold_task_frame p0 st0 ⟨1, 2, 1, 2, 7, true⟩ rfl

/-- C6: each malformed ingest fails synchronously with the matching
validation error — unknown subject, self-comparison, bad winner/degree,
inactive (or unknown) rater — and on any such failure nothing at all is
persisted: the resulting state is the previous one. -/
theorem ingest_validation (p : EloParams) (s : State) (r : Request) :
    ((alookup s.subjects r.subject_a = none ∨ alookup s.subjects r.subject_b = none) →
      ingest p s r = .error .SubjectNotFound) ∧
    ((∃ sa, alookup s.subjects r.subject_a = some sa) →
      (∃ sb, alookup s.subjects r.subject_b = some sb) →
      r.subject_a = r.subject_b → ingest p s r = .error .SelfComparison) ∧
    ((∃ sa, alookup s.subjects r.subject_a = some sa) →
      (∃ sb, alookup s.subjects r.subject_b = some sb) →
      r.subject_a ≠ r.subject_b → validWinnerDegree r.winner r.degree = false →
      ingest p s r = .error .InvalidWinnerOrDegree) ∧
    ((∃ sa, alookup s.subjects r.subject_a = some sa) →
      (∃ sb, alookup s.subjects r.subject_b = some sb) →
      r.subject_a ≠ r.subject_b → validWinnerDegree r.winner r.degree = true →
      (alookup s.raters r.rater_id = none ∨
        ∃ rt, alookup s.raters r.rater_id = some rt ∧ rt.is_active = false) →
      ingest p s r = .error .RaterInactive) ∧
    (∀ e, ingest p s r = .error e → liveStep p s r = s) := by
  refine ⟨?_, ?_, ?_, ?_, ?_⟩
  · rintro (hna | hnb)
    · unfold ingest
      rw [hna]
    · unfold ingest
      rw [hnb]
      cases alookup s.subjects r.subject_a <;> rfl
  · rintro ⟨sa, ha⟩ ⟨sb, hb⟩ hab
    unfold ingest
    rw [ha, hb]
    dsimp only
    rw [if_pos hab]
  · rintro ⟨sa, ha⟩ ⟨sb, hb⟩ hab hbad
    unfold ingest
    rw [ha, hb]
    dsimp only
    rw [if_neg hab, if_pos (by simp [hbad])]
  · rintro ⟨sa, ha⟩ ⟨sb, hb⟩ hab hok hrt
    unfold ingest
    rw [ha, hb]
    dsimp only
    rw [if_neg hab, if_neg (not_not_intro hok)]
    rcases hrt with hn | ⟨rt, hrtl, hin⟩
    · rw [hn]
    · rw [hrtl]
      dsimp only
      rw [if_pos (by simp [hin])]
  · intro e he
    unfold liveStep
    rw [he]

/-- Evaluation witness for C6: a self-comparison request is rejected
with `SelfComparison` and the state is untouched. -/
theorem ingest_validation_witness :
    ingest p0 st0 ⟨1, 1, 1, 2, 7, false⟩ = .error .SelfComparison ∧
    liveStep p0 st0 ⟨1, 1, 1, 2, 7, false⟩ = st0 := by
  have h := ingest_validation p0 st0 ⟨1, 1, 1, 2, 7, false⟩
  have he : ingest p0 st0 ⟨1, 1, 1, 2, 7, false⟩ = .error .SelfComparison :=
    h.2.1 ⟨initSubject, by decide⟩ ⟨initSubject, by decide⟩ rfl
  exact ⟨he, h.2.2.2.2 _ he⟩

theorem liveRun_good (p : EloParams) (s : State) (rs : List Request)
    (hinv : ∀ c ∈ s.comparisons, goodComparison c) :
    ∀ c ∈ (liveRun p s rs).comparisons, goodComparison c := by
  induction rs generalizing s with
  | nil => simpa [liveRun] using hinv
  | cons r rs ih =>
    simp only [liveRun, List.foldl_cons]
    apply ih
    rcases liveStep_cases p s r with h | ⟨_, rts', h⟩ | ⟨_, c', e₁, e₂, hgf, hts, hgood, h⟩
    · rw [h]; exact hinv
    · rw [h]; exact hinv
    · rw [h]
      intro c hc
      rcases List.mem_append.mp hc with hc | hc
      · exact hinv c hc
      · rw [List.mem_singleton.mp hc]
        exact hgood

/-- C8: every comparison stored by any sequence of live ingests from a
clean state references distinct subjects, has winner code in `{0,1,2}`,
and has degree in `[1,3]` whenever it is not a tie. -/
theorem stored_comparisons_wellformed (p : EloParams) (ids : List ℕ)
    (rts : List (ℕ × Rater)) (gs : List GoldTask) (rs : List Request) (c : Comparison)
    (hc : c ∈ (liveRun p (initState ids rts gs) rs).comparisons) :
    goodComparison c :=
  liveRun_good p (initState ids rts gs) rs (by simp [initState]) c hc

/-- Evaluation witness for C8: the single comparison stored by a
concrete valid ingest is well-formed. -/
theorem stored_comparisons_wellformed_witness :
    goodComparison ⟨1, 2, 1, 2, 7, 1/2, false, 0⟩ :=
  stored_comparisons_wellformed p0 [1, 2] [(7, defaultRater)] []
    [⟨1, 2, 1, 2, 7, false⟩] ⟨1, 2, 1, 2, 7, 1/2, false, 0⟩
    (by
      simp only [liveRun, List.foldl_cons, List.foldl_nil, liveStep, ingest,
        initState, List.map_cons, List.map_nil, alookup, applySub, aset, updatePair,
        effectiveWeight, defaultRater, validWinnerDegree]
      norm_num [min_def])

theorem resetSubjects_cons (x : ℕ × SubjectState) (l : List (ℕ × SubjectState)) :
    resetSubjects (x :: l) = (x.1, initSubject) :: resetSubjects l := rfl

theorem resetSubjects_aset (m : List (ℕ × SubjectState)) (k : ℕ) (v : SubjectState) :
    resetSubjects (aset m k v) = resetSubjects m := by
  induction m with
  | nil => rfl
  | cons hd tl ih =>
    obtain ⟨a, w⟩ := hd
    by_cases h : a = k
    · simp only [aset, if_pos h, resetSubjects_cons, ih]
    · simp only [aset, if_neg h, resetSubjects_cons, ih]

theorem resetSubjects_applySub (p : EloParams) (m : List (ℕ × SubjectState))
    (c : Comparison) : resetSubjects (applySub p m c) = resetSubjects m := by
  unfold applySub
  cases alookup m c.video_id_1 with
  | none => rfl
  | some sa =>
    cases alookup m c.video_id_2 with
    | none => rfl
    | some sb => rw [resetSubjects_aset, resetSubjects_aset]

theorem sortTs_sorted_id (l : List Comparison)
    (h : l.Pairwise (fun c d => c.created_at ≤ d.created_at)) : sortTs l = l := by
  induction l with
  | nil => rfl
  | cons c cs ih =>
    rw [sortTs, ih (List.Pairwise.of_cons h)]
    cases cs with
    | nil => rfl
    | cons d ds =>
      have hcd : c.created_at ≤ d.created_at :=
        (List.pairwise_cons.mp h).1 d (List.mem_cons_self d ds)
      simp only [insertTs, if_pos hcd]

theorem liveStep_replayInv (p : EloParams) (base : List (ℕ × SubjectState)) (s : State)
    (r : Request) (hinv : ReplayInv p base s) : ReplayInv p base (liveStep p s r) := by
  obtain ⟨hfold, hreset, hts, hsort⟩ := hinv
  rcases liveStep_cases p s r with h | ⟨_, rts', h⟩ | ⟨_, c, e₁, e₂, hgf, hcts, hgood, h⟩
  · rw [h]
    exact ⟨hfold, hreset, hts, hsort⟩
  · rw [h]
    refine ⟨hfold, hreset, ?_, hsort⟩
    intro d hd
    exact Nat.lt_succ_of_lt (hts d hd)
  · rw [h]
    refine ⟨?_, ?_, ?_, ?_⟩
    · show applySub p s.subjects c = (s.comparisons ++ [c]).foldl (applySub p) base
      rw [List.foldl_append]
      simp only [List.foldl_cons, List.foldl_nil]
      rw [hfold]
    · show resetSubjects (applySub p s.subjects c) = base
      rw [resetSubjects_applySub, hreset]
    · intro d hd
      rcases List.mem_append.mp hd with hd | hd
      · exact Nat.lt_succ_of_lt (hts d hd)
      · rw [List.mem_singleton.mp hd, hcts]
        exact Nat.lt_succ_self _
    · rw [List.pairwise_append]
      refine ⟨hsort, List.pairwise_singleton _ _, ?_⟩
      intro a ha b hb
      rw [List.mem_singleton.mp hb, hcts]
      exact Nat.le_of_lt (hts a ha)

theorem liveRun_replayInv (p : EloParams) (base : List (ℕ × SubjectState)) (s : State)
    (rs : List Request) (hinv : ReplayInv p base s) :
    ReplayInv p base (liveRun p s rs) := by
  induction rs generalizing s with
  | nil => exact hinv
  | cons r rs ih =>
    simp only [liveRun, List.foldl_cons]
    exact ih (liveStep p s r) (liveStep_replayInv p base s r hinv)

theorem initState_replayInv (p : EloParams) (ids : List ℕ) (rts : List (ℕ × Rater))
    (gs : List GoldTask) :
    ReplayInv p (initState ids rts gs).subjects (initState ids rts gs) := by
  refine ⟨rfl, ?_, by simp [initState], by simp [initState]⟩
  simp only [initState, resetSubjects, List.map_map]
  rfl

/-- C2: resetting every subject to the initial defaults and replaying
all stored comparisons in ascending submission-timestamp order with
their originally snapshotted rater weights (the Recalculation Engine)
reproduces exactly the subject table produced incrementally by the live
Rating Updater, for every sequence of submissions from a clean state. -/
theorem recalc_reproduces_live (p : EloParams) (ids : List ℕ) (rts : List (ℕ × Rater))
    (gs : List GoldTask) (rs : List Request) :
    (recalc p (liveRun p (initState ids rts gs) rs)).subjects =
      (liveRun p (initState ids rts gs) rs).subjects := by
  obtain ⟨hfold, hreset, hts, hsort⟩ :=
    liveRun_replayInv p (initState ids rts gs).subjects (initState ids rts gs) rs
      (initState_replayInv p ids rts gs)
  show replaySubjects p _ _ = _
  rw [replaySubjects, sortTs_sorted_id _ hsort, hreset]
  exact hfold.symm

theorem snapFind_append_some (l l' : List Snapshot) (i : ℕ) (sn : Snapshot)
    (h : snapFind l i = some sn) : snapFind (l ++ l') i = some sn := by
  induction l with
  | nil => cases h
  | cons x xs ih =>
    rw [List.cons_append]
    simp only [snapFind] at h ⊢
    by_cases hx : x.sid = i
    · rw [if_pos hx] at h ⊢
      exact h
    · rw [if_neg hx] at h ⊢
      exact ih h

theorem snapFind_append_none (l l' : List Snapshot) (i : ℕ)
    (h : snapFind l i = none) : snapFind (l ++ l') i = snapFind l' i := by
  induction l with
  | nil => rfl
  | cons x xs ih =>
    rw [List.cons_append]
    simp only [snapFind] at h ⊢
    by_cases hx : x.sid = i
    · rw [if_pos hx] at h
      cases h
    · rw [if_neg hx] at h ⊢
      exact ih h

theorem snapFind_none_of_below (l : List Snapshot) (n : ℕ)
    (h : ∀ sn ∈ l, sn.sid < n) : snapFind l n = none := by
  induction l with
  | nil => rfl
  | cons x xs ih =>
    simp only [snapFind]
    rw [if_neg (Nat.ne_of_lt (h x (List.mem_cons_self x xs)))]
    exact ih (fun sn hsn => h sn (List.mem_cons_of_mem x hsn))

theorem snapFind_mem (l : List Snapshot) (i : ℕ) (sn : Snapshot)
    (h : snapFind l i = some sn) : sn ∈ l := by
  induction l with
  | nil => cases h
  | cons x xs ih =>
    simp only [snapFind] at h
    by_cases hx : x.sid = i
    · rw [if_pos hx] at h
      rw [← Option.some.inj h]
      exact List.mem_cons_self x xs
    · rw [if_neg hx] at h
      exact List.mem_cons_of_mem x (ih h)

theorem liveStep_snapshots (p : EloParams) (s : State) (r : Request) :
    (liveStep p s r).snapshots = s.snapshots := by
  rcases liveStep_cases p s r with h | ⟨_, _, h⟩ | ⟨_, _, _, _, _, _, _, h⟩ <;> rw [h]

theorem runOps_getSnapshot (p : EloParams) (ops : List Op) (s : State) (i : ℕ)
    (sn : Snapshot) (h : getSnapshot s i = some sn) :
    getSnapshot (runOps p s ops) i = some sn := by
  induction ops generalizing s with
  | nil => exact h
  | cons op ops ih =>
    simp only [runOps, List.foldl_cons]
    apply ih
    cases op with
    | compare r =>
      show snapFind (liveStep p s r).snapshots i = some sn
      rw [liveStep_snapshots]
      exact h
    | snapshot n d cr =>
      show snapFind (s.snapshots ++ [mkSnapshot s n d cr]) i = some sn
      exact snapFind_append_some _ _ _ _ h

/-- C7: capturing a snapshot persists a copy of the current ranking and
aggregate metrics with creator and timestamp, and no subsequent sequence
of operations (comparison ingests or further captures) changes it: it
stays retrievable by its id with exactly the captured contents and stays
in the snapshot listing. -/
theorem snapshot_capture_immutable (p : EloParams) (s : State) (n d : String) (cr : ℕ)
    (ops : List Op) (hids : snapIdsBelow s) :
    getSnapshot (runOps p (capture s n d cr) ops) s.nextSnapId =
      some (mkSnapshot s n d cr) ∧
    mkSnapshot s n d cr ∈ (runOps p (capture s n d cr) ops).snapshots := by
  have h1 : getSnapshot (capture s n d cr) s.nextSnapId = some (mkSnapshot s n d cr) := by
    show snapFind (s.snapshots ++ [mkSnapshot s n d cr]) s.nextSnapId = _
    rw [snapFind_append_none _ _ _ (snapFind_none_of_below _ _ hids)]
    simp [snapFind, mkSnapshot]
  have h2 := runOps_getSnapshot p ops _ _ _ h1
  exact ⟨h2, snapFind_mem _ _ _ h2⟩

/-- Evaluation witness for C7: capturing snapshot "week1" and then
ingesting ten more comparisons leaves the stored snapshot retrievable
and unchanged. -/
theorem snapshot_capture_immutable_witness :
    getSnapshot (runOps p0 (capture st0 "week1" "baseline" 0)
        (List.replicate 10 (Op.compare ⟨1, 2, 1, 2, 7, false⟩))) st0.nextSnapId =
      some (mkSnapshot st0 "week1" "baseline" 0) ∧
    mkSnapshot st0 "week1" "baseline" 0 ∈
      (runOps p0 (capture st0 "week1" "baseline" 0)
        (List.replicate 10 (Op.compare ⟨1, 2, 1, 2, 7, false⟩))).snapshots :=
  snapshot_capture_immutable p0 st0 "week1" "baseline" 0 _
    (by simp [snapIdsBelow, st0, initState])

end Lameless
